import Mathlib

/-!
Verification of the ai-artifact-builder backend core: the response parser,
prompt assembler (src/backend/src/services/anythingllm.service.js), the
vector-index glue (src/backend/src/services/vectordb.service.js) and the
rename route (src/backend/src/routes/files.js).

Strings are embedded as `List Char`; the JavaScript string operations used by
the code (regex scanning, first-occurrence replace, trim, newline collapsing)
are given executable definitions below.
-/

/-- Strings of the embedded program, as explicit character lists. -/
abbrev Str := List Char

/-- Coerce a Lean string literal into the embedded string type. -/
def str (s : String) : Str := s.data

/-- The JavaScript whitespace class used by regex `\s` and by `trim`
(restricted to the characters that can actually appear in this pipeline:
ASCII whitespace plus no-break space). -/
def isJsSpace (c : Char) : Bool :=
  c = ' ' || c = '\t' || c = '\n' || c = '\r' ||
  c = '\x0b' || c = '\x0c' || c = ' '

/-- JavaScript `String.prototype.trim`: drop leading and trailing whitespace. -/
def jsTrim (s : Str) : Str :=
  ((s.dropWhile isJsSpace).reverse.dropWhile isJsSpace).reverse

/-- Helper: `stripPrefixStr pat s` returns `some t` with `s = pat ++ t` when `s`
starts with `pat`, else `none` (regex literal matching). -/
def stripPrefixStr : Str → Str → Option Str
  | [], s => some s
  | _ :: _, [] => none
  | p :: ps, c :: cs => if p = c then stripPrefixStr ps cs else none

/-- Helper: `takeWhile1 p s` consumes the maximal nonempty run of characters
satisfying `p` (regex `X+` on a character class). -/
def takeWhile1 (p : Char → Bool) (s : Str) : Option (Str × Str) :=
  match s.takeWhile p with
  | [] => none
  | r => some (r, s.dropWhile p)

/-- Helper: `splitFirst s pat` splits `s` around the first occurrence of `pat`
(`s = a ++ pat ++ b`), as used both by lazy regex bodies (`[\s\S]*?` up to a
literal) and by JavaScript string `replace`. -/
def splitFirst : Str → Str → Option (Str × Str)
  | [], pat =>
    match stripPrefixStr pat [] with
    | some t => some ([], t)
    | none => none
  | c :: s', pat =>
    match stripPrefixStr pat (c :: s') with
    | some t => some ([], t)
    | none =>
      match splitFirst s' pat with
      | some (a, b) => some (c :: a, b)
      | none => none

/-- Whether `pat` occurs as a contiguous substring of `s`. -/
def containsSub (s pat : Str) : Bool :=
  (splitFirst s pat).isSome

/-- JavaScript `String.prototype.replace` with a plain-string pattern:
replaces only the first occurrence. -/
def replaceFirst (s pat repl : Str) : Str :=
  match splitFirst s pat with
  | some (a, b) => a ++ repl ++ b
  | none => s

-- Basic lemmas about the string primitives.

theorem stripPrefixStr_eq {pat s t : Str} (h : stripPrefixStr pat s = some t) :
    s = pat ++ t := by
  induction pat generalizing s with
  | nil => simpa [stripPrefixStr] using h
  | cons p ps ih =>
    cases s with
    | nil => simp [stripPrefixStr] at h
    | cons c cs =>
      by_cases hpc : p = c
      · subst hpc
        simp only [stripPrefixStr, if_pos rfl] at h
        simpa using ih h
      · simp [stripPrefixStr, hpc] at h

theorem takeWhile1_eq {p : Char → Bool} {s r t : Str}
    (h : takeWhile1 p s = some (r, t)) :
    s = r ++ t ∧ r ≠ [] ∧ ∀ c ∈ r, p c := by
  unfold takeWhile1 at h
  cases hw : s.takeWhile p with
  | nil => rw [hw] at h; exact absurd h (by simp)
  | cons x xs =>
    rw [hw] at h
    have h1 : r = x :: xs ∧ t = s.dropWhile p := by
      constructor
      · exact ((Prod.mk.injEq _ _ _ _).mp (Option.some.injEq _ _ |>.mp h)).1.symm
      · exact ((Prod.mk.injEq _ _ _ _).mp (Option.some.injEq _ _ |>.mp h)).2.symm
    obtain ⟨hr, ht⟩ := h1
    subst hr ht
    refine ⟨?_, by simp, ?_⟩
    · rw [← hw, List.takeWhile_append_dropWhile]
    · intro c hc
      rw [← hw] at hc
      exact List.mem_takeWhile_imp hc

theorem splitFirst_eq {s pat a b : Str} (h : splitFirst s pat = some (a, b)) :
    s = a ++ pat ++ b := by
  induction s generalizing a b with
  | nil =>
    unfold splitFirst at h
    cases hp : stripPrefixStr pat [] with
    | none => rw [hp] at h; simp at h
    | some t =>
      rw [hp] at h
      have := stripPrefixStr_eq hp
      simp only [Option.some.injEq, Prod.mk.injEq] at h
      obtain ⟨ha, hb⟩ := h
      subst ha; subst hb
      simpa using this
  | cons c s' ih =>
    unfold splitFirst at h
    cases hp : stripPrefixStr pat (c :: s') with
    | some t =>
      rw [hp] at h
      have := stripPrefixStr_eq hp
      simp only [Option.some.injEq, Prod.mk.injEq] at h
      obtain ⟨ha, hb⟩ := h
      subst ha; subst hb
      simpa using this
    | none =>
      rw [hp] at h
      cases hrec : splitFirst s' pat with
      | none => rw [hrec] at h; simp at h
      | some ab =>
        obtain ⟨a', b'⟩ := ab
        rw [hrec] at h
        simp only [Option.some.injEq, Prod.mk.injEq] at h
        obtain ⟨ha, hb⟩ := h
        subst ha; subst hb
        have := ih hrec
        simp [this]

theorem splitFirst_length {s pat a b : Str} (h : splitFirst s pat = some (a, b)) :
    s.length = a.length + pat.length + b.length := by
  have := splitFirst_eq h
  subst this
  simp [List.length_append]
  omega

/-!
## Response parser
Embeds `parseClaudeResponse`, `extractThinking` and `cleanMessage` from
src/backend/src/services/anythingllm.service.js.

The file-block regex of line 133 is
`/<file\s+path="([^"]+)"\s+language="([^"]+)">([\s\S]*?)<\/file>/g`.
Every quantified piece of that pattern is deterministic (each `\s+` and
`[^"]+` run is delimited by a character the class excludes, and the body is
lazy up to the literal `</file>`), so matching at a position is the
function below.
-/

/-- One regex match: captured path, language, content, and the whole
matched text (JavaScript `match[0]`). -/
structure FileMatch where
  path : Str
  lang : Str
  content : Str
  full : Str
  deriving DecidableEq

/-- Attempt to match the file-block regex at the start of `s`. On success
returns the match together with the remaining text after it. -/
def matchFileTagAt (s : Str) : Option (FileMatch × Str) :=
  (stripPrefixStr (str "<file") s).bind fun s1 =>
  (takeWhile1 isJsSpace s1).bind fun ws1s2 =>
  (stripPrefixStr (str "path=\"") ws1s2.2).bind fun s3 =>
  (takeWhile1 (fun c => ¬ (c = '"')) s3).bind fun ps4 =>
  (stripPrefixStr (str "\"") ps4.2).bind fun s5 =>
  (takeWhile1 isJsSpace s5).bind fun ws2s6 =>
  (stripPrefixStr (str "language=\"") ws2s6.2).bind fun s7 =>
  (takeWhile1 (fun c => ¬ (c = '"')) s7).bind fun ls8 =>
  (stripPrefixStr (str "\">") ls8.2).bind fun s9 =>
  (splitFirst s9 (str "</file>")).bind fun crest =>
  some (⟨ps4.1, ls8.1, crest.1,
    s.take (s.length - crest.2.length)⟩, crest.2)

/-- Shape of a successful file-tag match: the matched text decomposes into
the literal pieces of the regex, in the fixed order
`<file` whitespace `path="…"` whitespace `language="…">` body `</file>`,
with double quotes and nonempty attribute values. -/
def WellFormedTag (m : FileMatch) : Prop :=
  ∃ ws1 ws2 : Str,
    ws1 ≠ [] ∧ ws2 ≠ [] ∧
    (∀ c ∈ ws1, isJsSpace c) ∧ (∀ c ∈ ws2, isJsSpace c) ∧
    m.path ≠ [] ∧ m.lang ≠ [] ∧
    (∀ c ∈ m.path, ¬ (c = '"')) ∧ (∀ c ∈ m.lang, ¬ (c = '"')) ∧
    m.full = str "<file" ++ ws1 ++ str "path=\"" ++ m.path ++ str "\"" ++
      ws2 ++ str "language=\"" ++ m.lang ++ str "\">" ++ m.content ++
      str "</file>"

/-- Taking everything but the length of the second part of an append
recovers the first part. -/
theorem take_append_sub {A B : Str} :
    (A ++ B).take ((A ++ B).length - B.length) = A := by
  have h : (A ++ B).length - B.length = A.length := by
    simp [List.length_append]
  rw [h, List.take_left]

theorem matchFileTagAt_shape {s : Str} {m : FileMatch} {rest : Str}
    (h : matchFileTagAt s = some (m, rest)) :
    s = m.full ++ rest ∧ WellFormedTag m := by
  simp only [matchFileTagAt, Option.bind_eq_some] at h
  obtain ⟨s1, h1, ⟨ws1, s2⟩, h2, s3, h3, ⟨p, s4⟩, h4, s5, h5, ⟨ws2, s6⟩, h6,
    s7, h7, ⟨l, s8⟩, h8, s9, h9, ⟨c, rest'⟩, h10, h⟩ := h
  dsimp only at h3 h5 h7 h9 h
  simp only [Option.some.injEq, Prod.mk.injEq] at h
  obtain ⟨hm, hrest⟩ := h
  subst hm
  rw [← hrest]
  have d1 := stripPrefixStr_eq h1
  obtain ⟨d2, hws1ne, hws1⟩ := takeWhile1_eq h2
  have d3 := stripPrefixStr_eq h3
  obtain ⟨d4, hpne, hp⟩ := takeWhile1_eq h4
  have d5 := stripPrefixStr_eq h5
  obtain ⟨d6, hws2ne, hws2⟩ := takeWhile1_eq h6
  have d7 := stripPrefixStr_eq h7
  obtain ⟨d8, hlne, hl⟩ := takeWhile1_eq h8
  have d9 := stripPrefixStr_eq h9
  have d10 := splitFirst_eq h10
  subst d1 d2 d3 d4 d5 d6 d7 d8 d9 d10
  simp only [← List.append_assoc]
  constructor
  · dsimp only
    rw [take_append_sub]
  · refine ⟨ws1, ws2, hws1ne, hws2ne,
      fun x hx => hws1 x hx, fun x hx => hws2 x hx, hpne, hlne,
      fun x hx => by simpa using hp x hx,
      fun x hx => by simpa using hl x hx, ?_⟩
    dsimp only
    rw [take_append_sub]

/-- The matched text of a file tag is nonempty, so scanning always makes
progress. -/
theorem matchFileTagAt_rest_lt {s : Str} {m : FileMatch} {rest : Str}
    (h : matchFileTagAt s = some (m, rest)) : rest.length < s.length := by
  obtain ⟨hs, ws1, ws2, -, -, -, -, -, -, -, -, hfull⟩ := matchFileTagAt_shape h
  rw [hs, hfull]
  simp [List.length_append, str]
  omega

/-- One scanning step per unit of fuel; the wrapper `scanFileTags` supplies
fuel exceeding the text length, which `scanFileTagsF_spec`-style lemmas show
is always enough (each step consumes at least one character). -/
def scanFileTagsF : Nat → Str → List FileMatch
  | 0, _ => []
  | fuel + 1, s =>
    match matchFileTagAt s with
    | some (m, rest) => m :: scanFileTagsF fuel rest
    | none =>
      match s with
      | [] => []
      | _ :: s' => scanFileTagsF fuel s'

/-- Scan the text left to right for all non-overlapping matches of the
file-block regex, exactly as the JavaScript `while ((match =
fileRegex.exec(responseText)) !== null)` loop does under the `g` flag. -/
def scanFileTags (s : Str) : List FileMatch :=
  scanFileTagsF (s.length + 1) s

/-- With enough fuel, the fuel argument is irrelevant. -/
theorem scanFileTagsF_fuel {fuel1 fuel2 : Nat} {s : Str}
    (h1 : s.length < fuel1) (h2 : s.length < fuel2) :
    scanFileTagsF fuel1 s = scanFileTagsF fuel2 s := by
  induction fuel1 generalizing fuel2 s with
  | zero => omega
  | succ f1 ih =>
    cases fuel2 with
    | zero => omega
    | succ f2 =>
      simp only [scanFileTagsF]
      cases hm : matchFileTagAt s with
      | some mrest =>
        obtain ⟨m, rest⟩ := mrest
        have hr := matchFileTagAt_rest_lt hm
        dsimp only
        have e := ih (show rest.length < f1 by omega)
          (show rest.length < f2 by omega)
        rw [e]
      | none =>
        cases s with
        | nil => rfl
        | cons c s' =>
          simp only [List.length_cons] at h1 h2
          dsimp only
          exact ih (by omega) (by omega)

theorem scanFileTagsF_succ_match {fuel : Nat} {s : Str} {m : FileMatch}
    {rest : Str} (h : matchFileTagAt s = some (m, rest)) :
    scanFileTagsF (fuel + 1) s = m :: scanFileTagsF fuel rest := by
  simp only [scanFileTagsF, h]

theorem scanFileTagsF_succ_nomatch {fuel : Nat} {c : Char} {s' : Str}
    (h : matchFileTagAt (c :: s') = none) :
    scanFileTagsF (fuel + 1) (c :: s') = scanFileTagsF fuel s' := by
  simp only [scanFileTagsF, h]

/-- Unfolding rule for `scanFileTags` at a successful match. -/
theorem scanFileTags_match {s : Str} {m : FileMatch} {rest : Str}
    (h : matchFileTagAt s = some (m, rest)) :
    scanFileTags s = m :: scanFileTags rest := by
  have hlt := matchFileTagAt_rest_lt h
  unfold scanFileTags
  rw [scanFileTagsF_succ_match h]
  congr 1
  exact scanFileTagsF_fuel (by omega) (by omega)

/-- Unfolding rule for `scanFileTags` when no match starts at the head. -/
theorem scanFileTags_nomatch {c : Char} {s' : Str}
    (h : matchFileTagAt (c :: s') = none) :
    scanFileTags (c :: s') = scanFileTags s' := by
  unfold scanFileTags
  simp only [List.length_cons]
  rw [scanFileTagsF_succ_nomatch h]

/-- A generated file extracted from one tagged block
(`files.push({path: path.trim(), language: language.trim(),
content: content.trim()})`, anythingllm.service.js lines 141-145). -/
structure GeneratedFile where
  path : Str
  language : Str
  content : Str
  deriving DecidableEq

/-- The result of `parseClaudeResponse`. -/
structure ParsedResponse where
  message : Str
  files : List GeneratedFile
  thinking : Option Str
  deriving DecidableEq

/-- Embeds `extractThinking` (anythingllm.service.js lines 161-164): first
`/<thinking>([\s\S]*?)<\/thinking>/` match of the text, trimmed, else null.
The leftmost match starts at the first `<thinking>` occurrence and its lazy
body runs to the first `</thinking>` after it. -/
def extractThinking (text : Str) : Option Str :=
  match splitFirst text (str "<thinking>") with
  | none => none
  | some (_, b) =>
    match splitFirst b (str "</thinking>") with
    | none => none
    | some (content, _) => some (jsTrim content)

/-- Fueled worker for `removeThinkingAll`; each step removes one complete
thinking block, consuming at least the block itself. -/
def removeThinkingAllF : Nat → Str → Str
  | 0, s => s
  | fuel + 1, s =>
    match splitFirst s (str "<thinking>") with
    | none => s
    | some (a, b) =>
      match splitFirst b (str "</thinking>") with
      | none => s
      | some (_, c) => a ++ removeThinkingAllF fuel c

/-- The global regex replace
`.replace(/<thinking>[\s\S]*?<\/thinking>/g, '')` of `cleanMessage`:
remove every non-overlapping thinking block, scanning left to right. -/
def removeThinkingAll (s : Str) : Str :=
  removeThinkingAllF (s.length + 1) s

/-- Fueled worker for `collapseNewlines`; each step consumes at least one
character. -/
def collapseNewlinesF : Nat → Str → Str
  | 0, s => s
  | _ + 1, [] => []
  | fuel + 1, c :: rest =>
    if c = '\n' ∧ 2 ≤ (rest.takeWhile (fun x => x = '\n')).length then
      '\n' :: '\n' :: collapseNewlinesF fuel (rest.dropWhile (fun x => x = '\n'))
    else
      c :: collapseNewlinesF fuel rest

/-- The global regex replace `.replace(/\n{3,}/g, '\n\n')` of
`cleanMessage`: collapse every run of three or more newlines to two. -/
def collapseNewlines (s : Str) : Str :=
  collapseNewlinesF (s.length + 1) s

/-- Embeds `cleanMessage` (anythingllm.service.js lines 169-174): strip thinking
blocks, collapse three-or-more newlines to two, trim. -/
def cleanMessage (text : Str) : Str :=
  jsTrim (collapseNewlines (removeThinkingAll text))

/-- Embeds `parseClaudeResponse` (anythingllm.service.js lines 129-156): collect
all file-tag matches in scan order; for each match, in order, delete the
first occurrence of its full matched text from the running message
(JavaScript string `replace` with `''`); clean the remaining message; take
the thinking block from the original text. -/
def parseClaudeResponse (responseText : Str) : ParsedResponse :=
  let ms := scanFileTags responseText
  { message := cleanMessage
      (ms.foldl (fun acc m => replaceFirst acc m.full []) responseText)
    files := ms.map fun m =>
      ⟨jsTrim m.path, jsTrim m.lang, jsTrim m.content⟩
    thinking := extractThinking responseText }

example :
    parseClaudeResponse (str "<thinking>X</thinking>Hello") =
      ⟨str "Hello", [], some (str "X")⟩ := by decide

example :
    parseClaudeResponse
      (str "hi <file path=\"a.js\" language=\"js\">let x = 1</file> bye") =
      ⟨str "hi  bye", [⟨str "a.js", str "js", str "let x = 1"⟩], none⟩ := by
  decide


/-!
## Vector index service
Embeds src/backend/src/services/vectordb.service.js. The ChromaDB client
is external; its collection is modelled as a list of (id, entry) pairs
with the upsert/delete-by-id semantics its API documents.
-/

/-- Per-file metadata stored with each index entry
(vectordb.service.js lines 67-71). -/
structure FileMeta where
  path : Str
  language : Str
  lastModified : Nat
  deriving DecidableEq

/-- An indexed document: stored text plus metadata. -/
structure IndexEntry where
  document : Str
  meta : FileMeta
  deriving DecidableEq

/-- A project collection of the vector store, keyed by entry id. -/
abbrev VectorStore := List (Str × IndexEntry)

/-- JavaScript `x || y` on strings: `y` when `x` is empty (falsy). -/
def jsOrStr (x y : Str) : Str := if x = [] then y else x

/-- The deterministic entry id
``` `${projectId}_${f.path.replace(/\//g, '_')}` ```
(vectordb.service.js lines 72 and 94-96): project id, an underscore, then
the path with every slash replaced by an underscore. -/
def vectorFileId (projectId path : Str) : Str :=
  projectId ++ str "_" ++ path.map (fun c => if c = '/' then '_' else c)

/-- A file passed to `upsertFiles`. -/
structure UpsertFile where
  path : Str
  content : Str
  language : Str
  deriving DecidableEq

/-- One `collection.upsert` row: replace any entry with the same id, else
insert (ChromaDB upsert-by-id semantics). -/
def storeUpsert (st : VectorStore) (id : Str) (e : IndexEntry) : VectorStore :=
  (id, e) :: st.filter (fun p => ¬ (p.1 = id))

/-- Embeds `upsertFiles(projectId, files)` (vectordb.service.js lines 58-86):
derive ids, metadata (with `language || 'text'` and `lastModified: now`)
and documents (`f.content`), and upsert them. -/
def upsertFiles (projectId : Str) (files : List UpsertFile) (now : Nat)
    (st : VectorStore) : VectorStore :=
  files.foldl (fun acc f =>
    storeUpsert acc (vectorFileId projectId f.path)
      ⟨f.content, ⟨f.path, jsOrStr f.language (str "text"), now⟩⟩) st

/-- Embeds `deleteFiles(projectId, filePaths)` (vectordb.service.js lines 91-106):
delete the entries whose ids derive from the given paths. -/
def deleteFiles (projectId : Str) (filePaths : List Str)
    (st : VectorStore) : VectorStore :=
  let ids := filePaths.map (vectorFileId projectId)
  st.filter (fun p => ¬ (p.1 ∈ ids))

/-- Look an entry up by id. -/
def storeLookup (st : VectorStore) (id : Str) : Option IndexEntry :=
  (st.find? (fun p => p.1 = id)).map (fun p => p.2)

/-- The nested-object file tree built by `buildFileTree`
(vectordb.service.js lines 152-170): a JavaScript object in key insertion
order whose values are `null` for files and sub-objects for directories. -/
inductive FileTree where
  | mk : List (Str × Option FileTree) → FileTree

/-- The entry list of a tree node. -/
def FileTree.entries : FileTree → List (Str × Option FileTree)
  | .mk es => es

/-- First value stored under a key, if any. -/
def lookupEntry (es : List (Str × Option FileTree)) (k : Str) :
    Option (Option FileTree) :=
  (es.find? (fun e => e.1 = k)).map (fun e => e.2)

/-- Replace the value of an existing key in place; append a fresh key.
Mirrors JavaScript object assignment `current[part] = v`. -/
def setEntry (es : List (Str × Option FileTree)) (k : Str)
    (v : Option FileTree) : List (Str × Option FileTree) :=
  match es with
  | [] => [(k, v)]
  | e :: rest => if e.1 = k then (k, v) :: rest else e :: setEntry rest k v

/-- Insert one path (already split into parts) into the tree, following
the loop of `buildFileTree`: a last part becomes `null` unless an object
is already there; an intermediate part becomes an object, overwriting a
`null` (a file turning into a directory). -/
def insertParts (t : FileTree) : List Str → FileTree
  | [] => t
  | [part] =>
    match lookupEntry t.entries part with
    | some (some _) => t
    | _ => .mk (setEntry t.entries part none)
  | part :: rest =>
    let sub :=
      match lookupEntry t.entries part with
      | some (some s) => s
      | _ => .mk []
    .mk (setEntry t.entries part (some (insertParts sub rest)))

/-- Embeds `path.split('/').filter(p => p)`: split on slashes, drop empties. -/
def splitSlash (s : Str) : List Str :=
  ((s.splitOn '/').filter (fun p => ¬ (p = [])))

/-- Embeds `buildFileTree(paths)` (vectordb.service.js lines 152-170). -/
def buildFileTree (paths : List Str) : FileTree :=
  paths.foldl (fun t path => insertParts t (splitSlash path)) (.mk [])

/-- Lexicographic (code-point) order on strings; models
`String.prototype.localeCompare` returning a negative value, as the
comparator of `treeToString` uses it on the ASCII names in scope. -/
def strLt : Str → Str → Bool
  | [], [] => false
  | [], _ :: _ => true
  | _ :: _, [] => false
  | a :: as, b :: bs =>
    if a < b then true
    else if b < a then false
    else strLt as bs

/-- The sort comparator of `treeToString` (vectordb.service.js lines
178-183) as a `≤` test: directories (non-null values) sort before files
(null values); within a kind, names sort lexicographically. -/
def entryLE (a b : Str × Option FileTree) : Bool :=
  match a.2, b.2 with
  | none, some _ => false
  | some _, none => true
  | _, _ => ¬ (strLt b.1 a.1)

/-- Insertion into a sorted list. -/
def insertSorted (x : Str × Option FileTree) :
    List (Str × Option FileTree) → List (Str × Option FileTree)
  | [] => [x]
  | y :: ys => if entryLE x y then x :: y :: ys else y :: insertSorted x ys

/-- Insertion sort with the `treeToString` comparator. For the duplicate
free key lists produced by `buildFileTree` the comparator is a strict
total order, so this computes the unique sorted arrangement that
JavaScript `Array.prototype.sort` also produces. -/
def sortEntries (l : List (Str × Option FileTree)) :
    List (Str × Option FileTree) :=
  l.foldr insertSorted []

/-- The line icon: 📄 for a file (null), 📁 for a directory. -/
def entryIcon : Option FileTree → Str
  | none => str "📄"
  | some _ => str "📁"

/-- Fueled worker for `treeToString`; fuel bounds the recursion depth and
any fuel larger than the tree height (such as the node count supplied by
the wrapper) yields the full rendering. -/
def treeToStringF : Nat → FileTree → Str → Str
  | 0, _, _ => []
  | fuel + 1, t, indent =>
    (sortEntries t.entries).foldl (fun acc e =>
      acc ++ indent ++ entryIcon e.2 ++ str " " ++ e.1 ++ str "\n" ++
        match e.2 with
        | none => []
        | some sub => treeToStringF fuel sub (indent ++ str "  ")) []

/-- Count of nodes of a tree: a bound on its height used as fuel. -/
def treeSize : FileTree → Nat
  | .mk es => 1 + sizeEntries es
where
  sizeEntries : List (Str × Option FileTree) → Nat
    | [] => 0
    | (_, none) :: rest => 1 + sizeEntries rest
    | (_, some t) :: rest => 1 + treeSize t + sizeEntries rest

/-- Embeds `treeToString(tree, indent = '')` (vectordb.service.js lines 175-195):
render entries sorted directories-first then alphabetically, one line per
entry, recursing into directories with two more spaces of indent. -/
def treeToString (t : FileTree) (indent : Str) : Str :=
  treeToStringF (treeSize t) t indent

example :
    treeToString (buildFileTree [str "a/b.js", str "a/c.js", str "d.js"])
      [] =
    str "📁 a\n  📄 b.js\n  📄 c.js\n📄 d.js\n" := by decide

/-- A context file reconstructed from a query result
(vectordb.service.js lines 24-36). The score is the raw distance
(`results.distances?.[0]?.[idx] || 0`), kept abstract as an integer. -/
structure ContextFile where
  path : Str
  language : Str
  content : Str
  score : Int
  deriving DecidableEq

/-- The result of `queryRelevantFiles`: context files plus the textual
project structure. -/
structure QueryResult where
  files : List ContextFile
  structureText : Str
  deriving DecidableEq

/-- The shape of a `collection.query` response actually read by the code:
`documents[0]`, `metadatas[0]` (whose rows may be missing) and
`distances[0]`, each of which may be absent. -/
structure ChromaQueryResults where
  documents : Option (List Str)
  metadatas : Option (List (Option FileMeta))
  distances : Option (List Int)

/-- Outcomes of the external ChromaDB calls made during one
`queryRelevantFiles` request: each field is what the corresponding client
call returns, or the error it throws. -/
structure ChromaBehavior where
  getOrCreate : Except Str Unit
  query : Except Str ChromaQueryResults
  getCollection : Except Str Unit
  getAll : Except Str (Option (List FileMeta))

/-- The file-list reconstruction loop of `queryRelevantFiles`
(vectordb.service.js lines 24-36). -/
def filesFromResults (r : ChromaQueryResults) : List ContextFile :=
  match r.documents with
  | none => []
  | some docs =>
    (docs.enum.filterMap fun di =>
      match r.metadatas with
      | none => none
      | some ms =>
        match ms.getD di.1 none with
        | none => none
        | some meta =>
          some ⟨meta.path, meta.language, di.2,
            (match r.distances with
             | none => 0
             | some ds => ds.getD di.1 0)⟩)

/-- Embeds `getProjectStructure(projectId)` (vectordb.service.js lines 126-147):
on any thrown client error return `''`; with no metadata (absent or empty)
return `'Empty project'`; otherwise render the tree of the indexed paths. -/
def getProjectStructure (o : ChromaBehavior) : Str :=
  match o.getCollection with
  | .error _ => []
  | .ok _ =>
    match o.getAll with
    | .error _ => []
    | .ok none => str "Empty project"
    | .ok (some ms) =>
      if ms.length = 0 then str "Empty project"
      else treeToString (buildFileTree (ms.map (fun m => m.path))) []

/-- Embeds `queryRelevantFiles(projectId, query, topK)` (vectordb.service.js
lines 14-53): get or create the collection, run the similarity query,
rebuild the file list, attach the project structure; any error thrown
inside the `try` yields `{files: [], structure: ''}`. -/
def queryRelevantFiles (o : ChromaBehavior) : QueryResult :=
  match o.getOrCreate with
  | .error _ => ⟨[], []⟩
  | .ok _ =>
    match o.query with
    | .error _ => ⟨[], []⟩
    | .ok results => ⟨filesFromResults results, getProjectStructure o⟩

/-!
## Prompt assembler
Embeds `buildEnrichedPrompt` (anythingllm.service.js lines 82-124),
written exactly as the sequence of `prompt += …` steps of the source.
-/

/-- Chat options; `mode` is the request mode string. -/
structure ChatOptions where
  mode : Str
  deriving DecidableEq

/-- The fixed instruction block appended to every prompt
(anythingllm.service.js lines 102-112). -/
def instructionsBlock : Str :=
  str "# Instructions\n\n" ++
  str "You are helping develop a software project. When generating code:\n" ++
  str "1. Generate complete, production-ready code\n" ++
  str "2. Follow the existing project structure and conventions\n" ++
  str "3. Include all necessary imports and dependencies\n" ++
  str "4. Wrap each file in XML tags with path and language:\n\n" ++
  str "<file path=\"src/components/Button.jsx\" language=\"javascript\">\n" ++
  str "// file content here\n" ++
  str "</file>\n\n" ++
  str "5. You can generate multiple files in one response\n" ++
  str "6. Make sure code is ready to run without modifications\n\n"

/-- Embeds `buildEnrichedPrompt(userMessage, context, options)`. -/
def buildEnrichedPrompt (userMessage : Str) (context : QueryResult)
    (options : ChatOptions) : Str :=
  let prompt := str "# Project Context\n\n"
  let prompt :=
    if context.files.length > 0 then
      context.files.foldl (fun acc file =>
        acc ++ str "### " ++ file.path ++ str "\n" ++
        str "```" ++ jsOrStr file.language (str "text") ++ str "\n" ++
        file.content ++ str "\n" ++
        str "```\n\n") (prompt ++ str "## Relevant Files:\n\n")
    else prompt
  let prompt :=
    if ¬ (context.structureText = []) then
      prompt ++ str "## Project Structure:\n```\n" ++
        context.structureText ++ str "\n```\n\n"
    else prompt
  let prompt := prompt ++ instructionsBlock
  let prompt :=
    if options.mode = str "refactor" then
      prompt ++
        str "Focus on refactoring existing code while maintaining functionality.\n\n"
    else if options.mode = str "test" then
      prompt ++ str "Generate comprehensive tests for the code.\n\n"
    else prompt
  prompt ++ str "# User Request\n\n" ++ userMessage

/-!
## Relational file store and the rename route
Embeds the `files` table operations of
src/backend/src/services/filesystem.service.js (keyed upsert via
`ON CONFLICT (project_id, path) DO UPDATE`, lookup, delete returning
NotFound when the row is absent) and the handler of
`POST /api/files/rename` (src/backend/src/routes/files.js lines 239-283).
-/

/-- A row of the `files` table (the columns the rename flow touches). -/
structure FileRecord where
  content : Str
  language : Str
  deriving DecidableEq

/-- The `files` table, keyed by `(project_id, path)` (unique constraint). -/
abbrev FileStore := List ((Str × Str) × FileRecord)

/-- Embeds `saveFile` (filesystem.service.js lines 247-283): insert or update the
row for `(projectId, path)`. -/
def saveFile (fs : FileStore) (projectId path : Str) (rec : FileRecord) :
    FileStore :=
  ((projectId, path), rec) :: fs.filter (fun r => ¬ (r.1 = (projectId, path)))

/-- Embeds `readFile` (filesystem.service.js lines 288-311): the row, or a
NotFound error. -/
def readFile (fs : FileStore) (projectId path : Str) :
    Except Str FileRecord :=
  match fs.find? (fun r => r.1 = (projectId, path)) with
  | some r => .ok r.2
  | none => .error (str "File not found")

/-- Embeds `deleteFile` (filesystem.service.js lines 396-422): delete the row,
failing with NotFound when absent. -/
def deleteFile (fs : FileStore) (projectId path : Str) :
    Except Str (FileStore × FileRecord) :=
  match fs.find? (fun r => r.1 = (projectId, path)) with
  | some r => .ok (fs.filter (fun q => ¬ (q.1 = (projectId, path))), r.2)
  | none => .error (str "File not found")

/-- The `POST /api/files/rename` handler body (files.js lines 239-283):
read the old row, save its content under the new path, delete the old
path, then delete the old path from the vector index and upsert the new
one. Any thrown step maps to a 500 response, here an `error` value. -/
def renameRoute (projectId oldPath newPath : Str) (now : Nat)
    (fs : FileStore) (vs : VectorStore) :
    Except Str (FileStore × VectorStore × FileRecord) :=
  match readFile fs projectId oldPath with
  | .error e => .error e
  | .ok oldFile =>
    let fs1 := saveFile fs projectId newPath oldFile
    match deleteFile fs1 projectId oldPath with
    | .error e => .error e
    | .ok (fs2, _) =>
      let vs1 := deleteFiles projectId [oldPath] vs
      let vs2 := upsertFiles projectId
        [⟨newPath, oldFile.content, oldFile.language⟩] now vs1
      .ok (fs2, vs2, oldFile)

/-!
## Claims about the vector-index identifiers and stores
-/

/-- Undo the slash-to-underscore substitution; total inverse only on
underscore-free paths. -/
def underscoreToSlash (c : Char) : Char := if c = '_' then '/' else c

theorem map_slash_roundtrip {p : Str} (h : '_' ∉ p) :
    (p.map (fun c => if c = '/' then '_' else c)).map underscoreToSlash = p := by
  induction p with
  | nil => rfl
  | cons c cs ih =>
    simp only [List.mem_cons, not_or] at h
    obtain ⟨hc, hcs⟩ := h
    simp only [List.map_cons, ih hcs, List.cons.injEq, and_true]
    by_cases hcslash : c = '/'
    · subst hcslash; simp [underscoreToSlash]
    · simp only [if_neg hcslash, underscoreToSlash]
      rw [if_neg (fun hfalse => hc hfalse.symm)]

/-- C2 counterexample: the identifier derivation collides on the distinct
paths `a/b` and `a_b` of the same project, because slashes are folded to
underscores. -/
theorem c2_counterexample :
    ¬ (str "a/b" = str "a_b") ∧
    vectorFileId (str "p") (str "a/b") = vectorFileId (str "p") (str "a_b") := by
  decide

/-- C2 (amended): within a project the identifier derived from
`(projectId, path)` is injective on paths containing no underscore; on
arbitrary paths it is not injective (see the counterexample), because the
separator normalization maps `/` onto the literal `_`. -/
theorem c2_vectorId_injective (pid p1 p2 : Str)
    (h1 : '_' ∉ p1) (h2 : '_' ∉ p2) (hne : ¬ (p1 = p2)) :
    ¬ (vectorFileId pid p1 = vectorFileId pid p2) := by
  intro h
  unfold vectorFileId at h
  rw [List.append_assoc, List.append_assoc] at h
  have h3 := List.append_cancel_left h
  have h4 := List.append_cancel_left h3
  have h5 := congrArg (List.map underscoreToSlash) h4
  rw [map_slash_roundtrip h1, map_slash_roundtrip h2] at h5
  exact hne h5

/-- C2 witness: the amended statement applied to the underscore-free
distinct paths `a/b` and `c`. -/
theorem c2_witness :
    ¬ (vectorFileId (str "p") (str "a/b") = vectorFileId (str "p") (str "c")) :=
  c2_vectorId_injective (str "p") (str "a/b") (str "c")
    (by decide) (by decide) (by decide)

/-- The behavior of a reachable store holding a freshly created, still
empty project collection: every call succeeds and returns empty data. -/
def emptyIndexBehavior : ChromaBehavior :=
  ⟨.ok (), .ok ⟨some [], some [], some []⟩, .ok (), .ok (some [])⟩

/-- C3 counterexample: with the vector store reachable and the project
index empty (the `getOrCreateCollection` call has just created it),
`queryRelevantFiles` returns structure `'Empty project'`, not `''`. -/
theorem c3_counterexample :
    queryRelevantFiles emptyIndexBehavior = ⟨[], str "Empty project"⟩ ∧
    ¬ (str "Empty project" = ([] : Str)) := by
  decide

/-- C3 (amended): an unreachable store (any throwing client call inside
the `try`) yields exactly `{files: [], structure: ''}` and no error ever
propagates to the caller; a reachable store whose project index is empty
yields `{files: [], structure: 'Empty project'}` instead. -/
theorem c3_retrieval_degrades (o : ChromaBehavior) :
    (∀ e, o.getOrCreate = .error e → queryRelevantFiles o = ⟨[], []⟩) ∧
    (∀ e, o.query = .error e → queryRelevantFiles o = ⟨[], []⟩) ∧
    queryRelevantFiles emptyIndexBehavior = ⟨[], str "Empty project"⟩ := by
  refine ⟨?_, ?_, by decide⟩
  · intro e he
    unfold queryRelevantFiles
    rw [he]
  · intro e he
    unfold queryRelevantFiles
    cases hg : o.getOrCreate with
    | error e2 => rfl
    | ok u => rw [he]

/-- C3 witness: the amended statement applied to a fully unreachable
store. -/
theorem c3_witness :
    queryRelevantFiles
      ⟨.error (str "down"), .error (str "down"), .error (str "down"),
        .error (str "down")⟩ = ⟨[], []⟩ :=
  (c3_retrieval_degrades _).1 (str "down") rfl

/-- Filtering for a key right after filtering it away yields nothing. -/
theorem filter_key_of_filter_ne {st : VectorStore} {id : Str} :
    (st.filter (fun p => ¬ (p.1 = id))).filter (fun p => p.1 = id) = [] := by
  induction st with
  | nil => rfl
  | cons e rest ih =>
    by_cases he : e.1 = id
    · simp [List.filter, he, ih]
    · simp [List.filter, he, ih]

/-- C6: the index keeps at most one entry per `(projectId, path)`:
upserting the same path twice, with any contents, leaves exactly one entry
under that identifier, whose document and metadata are those of the latest
upsert, and deleting the path removes the entry. -/
theorem c6_upsert_idempotent (pid p c1 l1 c2 l2 : Str) (t1 t2 : Nat)
    (st : VectorStore) :
    ((upsertFiles pid [⟨p, c2, l2⟩] t2 (upsertFiles pid [⟨p, c1, l1⟩] t1 st)).filter
        (fun e => e.1 = vectorFileId pid p)).length = 1 ∧
    storeLookup (upsertFiles pid [⟨p, c2, l2⟩] t2
        (upsertFiles pid [⟨p, c1, l1⟩] t1 st)) (vectorFileId pid p) =
      some ⟨c2, ⟨p, jsOrStr l2 (str "text"), t2⟩⟩ ∧
    storeLookup (deleteFiles pid [p]
        (upsertFiles pid [⟨p, c2, l2⟩] t2 (upsertFiles pid [⟨p, c1, l1⟩] t1 st)))
      (vectorFileId pid p) = none := by
  simp only [upsertFiles, List.foldl_cons, List.foldl_nil, storeUpsert]
  refine ⟨?_, ?_, ?_⟩
  · rw [List.filter_cons_of_pos (by simp)]
    rw [filter_key_of_filter_ne]
    rfl
  · simp [storeLookup, List.find?]
  · simp only [deleteFiles, storeLookup, List.map_cons, List.map_nil]
    rw [List.find?_eq_none.mpr]
    · rfl
    · intro x hx
      have hmem := List.mem_filter.mp hx
      have := hmem.2
      simp only [List.mem_cons, List.mem_nil_iff, or_false,
        decide_eq_true_eq] at this
      simp only [decide_eq_true_eq]
      intro hxeq
      exact this (by simp [hxeq])

/-- C9: invoking the rename route with `oldPath = newPath` on an existing
file succeeds, removes the row from the relational file store (the
re-insert under the same key is undone by the subsequent delete), yet the
vector index ends up holding an entry for that very path: the two stores
diverge. -/
theorem c9_rename_same_path (pid p : Str) (now : Nat) (fs : FileStore)
    (vs : VectorStore) (rec : FileRecord)
    (h : readFile fs pid p = .ok rec) :
    ∃ fs2 vs2,
      renameRoute pid p p now fs vs = .ok (fs2, vs2, rec) ∧
      readFile fs2 pid p = .error (str "File not found") ∧
      storeLookup vs2 (vectorFileId pid p) =
        some ⟨rec.content, ⟨p, jsOrStr rec.language (str "text"), now⟩⟩ := by
  unfold renameRoute
  rw [h]
  dsimp only
  have hdel : deleteFile (saveFile fs pid p rec) pid p =
      .ok ((saveFile fs pid p rec).filter (fun q => ¬ (q.1 = (pid, p))), rec) := by
    unfold deleteFile saveFile
    rw [List.find?_cons_of_pos _ (by simp)]
  rw [hdel]
  dsimp only
  refine ⟨_, _, rfl, ?_, ?_⟩
  · unfold readFile
    rw [List.find?_eq_none.mpr]
    intro x hx
    have hmem := List.mem_filter.mp hx
    simpa using hmem.2
  · simp [upsertFiles, storeUpsert, storeLookup, List.find?]

/-!
## Claims about the response parser
-/

theorem stripPrefixStr_append (pat t : Str) :
    stripPrefixStr pat (pat ++ t) = some t := by
  induction pat with
  | nil => rfl
  | cons p ps ih => simp [stripPrefixStr, ih]

theorem splitFirst_of_strip {s pat t : Str}
    (h : stripPrefixStr pat s = some t) : splitFirst s pat = some ([], t) := by
  cases s with
  | nil => simp [splitFirst, h]
  | cons c s' => simp [splitFirst, h]

/-- A pattern always occurs in text that literally interpolates it. -/
theorem containsSub_middle (u pat v : Str) :
    containsSub (u ++ pat ++ v) pat = true := by
  induction u with
  | nil =>
    simp only [List.nil_append]
    unfold containsSub
    rw [splitFirst_of_strip (stripPrefixStr_append pat v)]
    rfl
  | cons x u' ih =>
    unfold containsSub at ih ⊢
    simp only [List.cons_append, List.append_assoc] at ih ⊢
    cases hsp : stripPrefixStr pat (x :: (u' ++ (pat ++ v))) with
    | some t => simp [splitFirst, hsp]
    | none =>
      cases hrec : splitFirst (u' ++ (pat ++ v)) pat with
      | none => rw [hrec] at ih; simp at ih
      | some ab =>
        obtain ⟨a, b⟩ := ab
        simp [splitFirst, hsp, hrec]

/-- Unpack the absence of a pattern at the head of a cons. -/
theorem containsSub_cons_false {x : Char} {l pat : Str}
    (h : containsSub (x :: l) pat = false) :
    containsSub l pat = false ∧ stripPrefixStr pat (x :: l) = none := by
  unfold containsSub at h ⊢
  cases hsp : stripPrefixStr pat (x :: l) with
  | some t => rw [splitFirst_of_strip hsp] at h; simp at h
  | none =>
    refine ⟨?_, rfl⟩
    cases hrec : splitFirst l pat with
    | none => rfl
    | some ab =>
      obtain ⟨a, b⟩ := ab
      simp only [splitFirst, hsp, hrec] at h
      simp at h

/-- The empty pattern occurs in every text. -/
theorem containsSub_nil_pat (s : Str) : containsSub s [] = true := by
  cases s <;> simp [containsSub, splitFirst, stripPrefixStr]

/-- If `pat` is a prefix of `A ++ z` and `pat.length ≤ A.length`, then
`pat` is a prefix of `A` in the `stripPrefixStr` sense. -/
theorem stripPrefixStr_of_long_prefix {pat A z t : Str}
    (heq : A ++ z = pat ++ t) (hlen : pat.length ≤ A.length) :
    stripPrefixStr pat A = some (A.drop pat.length) := by
  have htake : A.take pat.length = pat := by
    have e1 : (A ++ z).take pat.length = pat := by
      rw [heq, List.take_append_eq_append_take]
      simp
    rw [List.take_append_eq_append_take, Nat.sub_eq_zero_of_le hlen] at e1
    simpa using e1
  conv in stripPrefixStr pat A =>
    rw [← List.take_append_drop pat.length A, htake]
  rw [stripPrefixStr_append]

/-- When a pattern occurs nowhere strictly before the interpolated
occurrence (not inside `a` nor straddling its boundary, which is what
`containsSub (a ++ pat.dropLast) pat = false` states), `splitFirst` splits
exactly at that occurrence. -/
theorem splitFirst_first_occurrence {pat : Str} (a b : Str)
    (h : containsSub (a ++ pat.dropLast) pat = false) :
    splitFirst (a ++ pat ++ b) pat = some (a, b) := by
  by_cases hpatne : pat = []
  · exfalso
    rw [hpatne] at h
    simp only [List.dropLast_nil, List.append_nil] at h
    rw [containsSub_nil_pat] at h
    exact Bool.true_eq_false.mp h
  · induction a with
    | nil =>
      simp only [List.nil_append]
      exact splitFirst_of_strip (stripPrefixStr_append pat b)
    | cons x a' ih =>
      simp only [List.cons_append, List.append_assoc] at h ⊢
      obtain ⟨h1, h2⟩ := containsSub_cons_false h
      have hsp : stripPrefixStr pat (x :: (a' ++ (pat ++ b))) = none := by
        cases hspq : stripPrefixStr pat (x :: (a' ++ (pat ++ b))) with
        | none => rfl
        | some t =>
          exfalso
          have heq := stripPrefixStr_eq hspq
          have hA : x :: (a' ++ (pat ++ b)) =
              (x :: (a' ++ pat.dropLast)) ++
                ([pat.getLast hpatne] ++ b) := by
            conv_lhs => rw [← List.dropLast_append_getLast hpatne]
            simp
          have hlen : pat.length ≤ (x :: (a' ++ pat.dropLast)).length := by
            have hdl : pat.dropLast.length = pat.length - 1 := by
              simp [List.length_dropLast]
            have hp1 : 1 ≤ pat.length := by
              cases pat with
              | nil => exact absurd rfl hpatne
              | cons _ _ => simp
            simp only [List.length_cons, List.length_append, hdl]
            omega
          rw [hA] at heq
          have := stripPrefixStr_of_long_prefix heq hlen
          rw [h2] at this
          exact Option.noConfusion this
      have hrec := ih (by simpa [List.append_assoc] using h1)
      simp only [List.append_assoc] at hrec
      simp only [splitFirst, hsp, hrec]

/-- C4: the thinking field comes from scanning the original raw text (the
parser hands `responseText`, not the file-stripped message, to
`extractThinking`), yielding the trimmed body of the first
`<thinking>…</thinking>` block when one exists and null otherwise; in
particular `"<thinking>X</thinking>Hello"` parses to
`{thinking: "X", cleanedMessage: "Hello", files: []}`. -/
theorem c4_thinking_extraction (raw a b c : Str)
    (ha : containsSub (a ++ (str "<thinking>").dropLast)
      (str "<thinking>") = false)
    (hb : containsSub (b ++ (str "</thinking>").dropLast)
      (str "</thinking>") = false) :
    (parseClaudeResponse raw).thinking = extractThinking raw ∧
    extractThinking
      (a ++ str "<thinking>" ++ b ++ str "</thinking>" ++ c) =
      some (jsTrim b) ∧
    parseClaudeResponse (str "<thinking>X</thinking>Hello") =
      ⟨str "Hello", [], some (str "X")⟩ := by
  refine ⟨rfl, ?_, by decide⟩
  unfold extractThinking
  have h1 := splitFirst_first_occurrence a
    (b ++ (str "</thinking>" ++ c)) ha
  simp only [List.append_assoc] at h1 ⊢
  rw [h1]
  dsimp only
  have h2 := splitFirst_first_occurrence b c hb
  simp only [List.append_assoc] at h2
  rw [h2]

/-- C4 witness: the extraction statement applied at a concrete response
with surrounding prose. -/
theorem c4_witness :
    extractThinking (str "A " ++ str "<thinking>" ++ str " X " ++
      str "</thinking>" ++ str "end") = some (jsTrim (str " X ")) :=
  (c4_thinking_extraction [] (str "A ") (str " X ") (str "end")
    (by decide) (by decide)).2.1

/-- Every text admitting a file-tag match contains `</file>`. -/
theorem scanFileTags_nil_of_no_close_aux :
    ∀ (n : Nat) (s : Str), s.length ≤ n →
      containsSub s (str "</file>") = false → scanFileTags s = [] := by
  intro n
  induction n with
  | zero =>
    intro s hs _
    have hnil : s = [] := List.length_eq_zero.mp (Nat.le_zero.mp hs)
    subst hnil
    rfl
  | succ n ih =>
    intro s hs h
    cases hm : matchFileTagAt s with
    | some mrest =>
      exfalso
      obtain ⟨m, rest⟩ := mrest
      obtain ⟨hdecomp, ws1, ws2, -, -, -, -, -, -, -, -, hfull⟩ :=
        matchFileTagAt_shape hm
      rw [hfull] at hdecomp
      rw [hdecomp] at h
      simp only [List.append_assoc] at h
      have := containsSub_middle
        (str "<file" ++ (ws1 ++ (str "path=\"" ++ (m.path ++ (str "\"" ++
          (ws2 ++ (str "language=\"" ++ (m.lang ++ (str "\">" ++
          m.content)))))))))
        (str "</file>") rest
      simp only [List.append_assoc] at this
      rw [this] at h
      exact Bool.true_eq_false.mp h
    | none =>
      cases s with
      | nil => rfl
      | cons c s' =>
        rw [scanFileTags_nomatch hm]
        have hs' : s'.length ≤ n := by
          simp only [List.length_cons] at hs
          omega
        exact ih s' hs' (containsSub_cons_false h).1

/-- All of `scanFileTags`, with no fuel bound in sight. -/
theorem scanFileTags_nil_of_no_close {s : Str}
    (h : containsSub s (str "</file>") = false) : scanFileTags s = [] :=
  scanFileTags_nil_of_no_close_aux s.length s (Nat.le_refl _) h

/-- C5 (amended): a raw text without any closing `</file>` marker (in
particular one whose only file tag is an unclosed opening tag) yields no
files and a message equal to the raw text after thinking-block removal,
newline collapsing and trimming. If a well-formed block coexists with the
unclosed tag, that block is still extracted (see the counterexample). -/
theorem c5_unclosed_tag_inert (raw : Str)
    (h : containsSub raw (str "</file>") = false) :
    (parseClaudeResponse raw).files = [] ∧
    (parseClaudeResponse raw).message = cleanMessage raw := by
  have hscan : scanFileTags raw = [] := scanFileTags_nil_of_no_close h
  constructor
  · simp [parseClaudeResponse, hscan]
  · simp [parseClaudeResponse, hscan]

/-- C5 witness: a raw text consisting of prose and one unclosed opening
tag parses to no files and the cleaned prose. -/
theorem c5_witness :
    (parseClaudeResponse
      (str "before <file path=\"a\" language=\"js\"> after")).files = [] ∧
    (parseClaudeResponse
      (str "before <file path=\"a\" language=\"js\"> after")).message =
      cleanMessage (str "before <file path=\"a\" language=\"js\"> after") :=
  c5_unclosed_tag_inert _ (by decide)

/-- C5 counterexample: a raw text that does contain an unclosed opening
file tag (its trailing `<file path="x" language="js">` is never closed)
for which `parseClaudeResponse` nevertheless returns a nonempty file list,
because a different, well-formed block precedes the unclosed tag. -/
theorem c5_counterexample :
    (parseClaudeResponse
      (str "<file path=\"a\" language=\"j\">1</file><file path=\"x\" language=\"js\">")).files =
      [⟨str "a", str "j", str "1"⟩] ∧
    ¬ ((parseClaudeResponse
      (str "<file path=\"a\" language=\"j\">1</file><file path=\"x\" language=\"js\">")).files = []) := by
  decide

/-- The given blocks occur disjointly and in this order inside the text. -/
inductive AppearsInOrder : Str → List Str → Prop where
  | nil (s : Str) : AppearsInOrder s []
  | cons (pre block rest : Str) (blocks : List Str) :
      AppearsInOrder rest blocks →
      AppearsInOrder (pre ++ block ++ rest) (block :: blocks)

theorem AppearsInOrder.cons_left {s : Str} {bs : List Str} (c : Char)
    (h : AppearsInOrder s bs) : AppearsInOrder (c :: s) bs := by
  cases h with
  | nil => exact .nil _
  | cons pre block rest blocks htail =>
    have hshift : c :: (pre ++ block ++ rest) =
        (c :: pre) ++ block ++ rest := by simp
    rw [hshift]
    exact .cons _ _ _ _ htail

theorem scanFileTags_appears_aux :
    ∀ (n : Nat) (s : Str), s.length ≤ n →
      AppearsInOrder s ((scanFileTags s).map (fun m => m.full)) := by
  intro n
  induction n with
  | zero =>
    intro s hs
    have hnil : s = [] := List.length_eq_zero.mp (Nat.le_zero.mp hs)
    subst hnil
    exact .nil []
  | succ n ih =>
    intro s hs
    cases hm : matchFileTagAt s with
    | some mrest =>
      obtain ⟨m, rest⟩ := mrest
      obtain ⟨hdecomp, -⟩ := matchFileTagAt_shape hm
      have hlt := matchFileTagAt_rest_lt hm
      rw [scanFileTags_match hm, List.map_cons]
      have ihrest := ih rest (by omega)
      rw [hdecomp, show m.full ++ rest = [] ++ m.full ++ rest by simp]
      exact .cons [] m.full rest _ ihrest
    | none =>
      cases s with
      | nil => exact .nil []
      | cons c s' =>
        rw [scanFileTags_nomatch hm]
        have hs' : s'.length ≤ n := by
          simp only [List.length_cons] at hs
          omega
        exact (ih s' hs').cons_left c

/-- Lemma: `scanFileTags` only returns well-formed matches. -/
theorem scanFileTags_wellformed_aux :
    ∀ (n : Nat) (s : Str), s.length ≤ n →
      ∀ m ∈ scanFileTags s, WellFormedTag m := by
  intro n
  induction n with
  | zero =>
    intro s hs m hm
    have hnil : s = [] := List.length_eq_zero.mp (Nat.le_zero.mp hs)
    subst hnil
    simp only [show scanFileTags [] = [] from rfl] at hm
    exact absurd hm (List.not_mem_nil m)
  | succ n ih =>
    intro s hs m hm
    cases hmt : matchFileTagAt s with
    | some mrest =>
      obtain ⟨m0, rest⟩ := mrest
      have hlt := matchFileTagAt_rest_lt hmt
      rw [scanFileTags_match hmt] at hm
      cases List.mem_cons.mp hm with
      | inl heq =>
        subst heq
        exact (matchFileTagAt_shape hmt).2
      | inr htail => exact ih rest (by omega) m htail
    | none =>
      cases s with
      | nil =>
        simp only [show scanFileTags [] = [] from rfl] at hm
        exact absurd hm (List.not_mem_nil m)
      | cons c s' =>
        rw [scanFileTags_nomatch hmt] at hm
        have hs' : s'.length ≤ n := by
          simp only [List.length_cons] at hs
          omega
        exact ih s' hs' m hm

/-- C1 (amended): `parseClaudeResponse` returns one `GeneratedFile` per
matched well-formed file-tag block, with trimmed path, language and
content, and the blocks occur in the raw text disjointly in exactly the
returned order; the cleaned message arises by deleting, for each matched
block in order, the first occurrence of its full text and then cleaning.
The deletion step does not guarantee that the cleaned message is free of
the matched tag markup: deleting a block can splice its surroundings into
a fresh copy of a matched block (see the counterexample). -/
theorem c1_parse_order_preservation (raw : Str) :
    (parseClaudeResponse raw).files =
      (scanFileTags raw).map
        (fun m => ⟨jsTrim m.path, jsTrim m.lang, jsTrim m.content⟩) ∧
    AppearsInOrder raw ((scanFileTags raw).map (fun m => m.full)) ∧
    (∀ m ∈ scanFileTags raw, WellFormedTag m) ∧
    (parseClaudeResponse raw).message =
      cleanMessage ((scanFileTags raw).foldl
        (fun acc m => replaceFirst acc m.full []) raw) :=
  ⟨rfl, scanFileTags_appears_aux raw.length raw (Nat.le_refl _),
    scanFileTags_wellformed_aux raw.length raw (Nat.le_refl _), rfl⟩

/-- C1 witness: the statement applied to a concrete two-block response. -/
theorem c1_witness :
    (parseClaudeResponse
      (str "hi <file path=\"a.js\" language=\"js\">x</file> and <file path=\"b.js\" language=\"js\">y</file>")).files =
      [⟨str "a.js", str "js", str "x"⟩, ⟨str "b.js", str "js", str "y"⟩] := by
  have h := c1_parse_order_preservation
    (str "hi <file path=\"a.js\" language=\"js\">x</file> and <file path=\"b.js\" language=\"js\">y</file>")
  rw [h.1]
  decide

/-- C1 counterexample: the raw text below contains exactly one matched
file-tag block, yet the cleaned message still contains that block's full
markup verbatim: the `replace` of the match removes an earlier identical
occurrence created by the text, splicing the remainder into a fresh copy
of the block. -/
theorem c1_counterexample :
    (scanFileTags
      (str "<file<file path=\"a\" language=\"j\">1</file> path=\"a\" language=\"j\">1</file>")).map
        (fun m => m.full) =
      [str "<file path=\"a\" language=\"j\">1</file>"] ∧
    (parseClaudeResponse
      (str "<file<file path=\"a\" language=\"j\">1</file> path=\"a\" language=\"j\">1</file>")).files =
      [⟨str "a", str "j", str "1"⟩] ∧
    containsSub
      (parseClaudeResponse
        (str "<file<file path=\"a\" language=\"j\">1</file> path=\"a\" language=\"j\">1</file>")).message
      (str "<file path=\"a\" language=\"j\">1</file>") = true := by
  decide

/-- C9 witness: the rename statement applied to a concrete one-file
store. -/
theorem c9_witness :
    ∃ fs2 vs2,
      renameRoute (str "p") (str "a") (str "a") 7
        [((str "p", str "a"), ⟨str "x", str "js"⟩)] [] =
        .ok (fs2, vs2, ⟨str "x", str "js"⟩) ∧
      readFile fs2 (str "p") (str "a") = .error (str "File not found") ∧
      storeLookup vs2 (vectorFileId (str "p") (str "a")) =
        some ⟨str "x", ⟨str "a", jsOrStr (str "js") (str "text"), 7⟩⟩ :=
  c9_rename_same_path (str "p") (str "a") 7
    [((str "p", str "a"), ⟨str "x", str "js"⟩)] [] ⟨str "x", str "js"⟩
    (by rfl)

/-- C10: a successful match of the file-tag pattern forces the exact
shape `<file` whitespace `path="…"` whitespace `language="…">` — the
attributes in that order, each double-quoted — and tags that list
language first, use single quotes, or omit an attribute yield no
`GeneratedFile`, while the canonical double-quoted path-then-language
form is extracted. -/
theorem c10_attribute_order :
    (∀ (s : Str) (m : FileMatch) (rest : Str),
      matchFileTagAt s = some (m, rest) → s = m.full ++ rest ∧ WellFormedTag m) ∧
    (parseClaudeResponse
      (str "<file language=\"js\" path=\"a\">x</file>")).files = [] ∧
    (parseClaudeResponse
      (str "<file path='a' language='js'>x</file>")).files = [] ∧
    (parseClaudeResponse (str "<file path=\"a\">x</file>")).files = [] ∧
    (parseClaudeResponse (str "<file language=\"js\">x</file>")).files = [] ∧
    (parseClaudeResponse
      (str "<file path=\"a\" language=\"js\">x</file>")).files =
      [⟨str "a", str "js", str "x"⟩] := by
  refine ⟨?_, by decide, by decide, by decide, by decide, by decide⟩
  intro s m rest h
  exact matchFileTagAt_shape h

/-- C10 witness: the shape statement applied to a concrete matching
text. -/
theorem c10_witness :
    str "<file path=\"a\" language=\"js\">x</file>" =
      (FileMatch.mk (str "a") (str "js") (str "x")
        (str "<file path=\"a\" language=\"js\">x</file>")).full ++ [] ∧
    WellFormedTag (FileMatch.mk (str "a") (str "js") (str "x")
      (str "<file path=\"a\" language=\"js\">x</file>")) :=
  c10_attribute_order.1
    (str "<file path=\"a\" language=\"js\">x</file>")
    (FileMatch.mk (str "a") (str "js") (str "x")
      (str "<file path=\"a\" language=\"js\">x</file>"))
    [] (by decide)

/-- One per-file sub-section of the prompt, as the spec describes it: the
path heading and a fenced code block tagged with the language. -/
def fileSubsection (f : ContextFile) : Str :=
  str "### " ++ f.path ++ str "\n" ++
  str "```" ++ jsOrStr f.language (str "text") ++ str "\n" ++
  f.content ++ str "\n" ++
  str "```\n\n"

/-- The context-files section: present only when files exist. -/
def relevantFilesSection (files : List ContextFile) : Str :=
  if files.length > 0 then
    str "## Relevant Files:\n\n" ++ (files.map fileSubsection).join
  else []

/-- The structure-outline section: present only when the outline is
nonempty. -/
def structureSection (s : Str) : Str :=
  if ¬ (s = []) then
    str "## Project Structure:\n```\n" ++ s ++ str "\n```\n\n"
  else []

/-- The mode-specific guidance: nonempty exactly for `refactor` and
`test`. -/
def modeGuidance (mode : Str) : Str :=
  if mode = str "refactor" then
    str "Focus on refactoring existing code while maintaining functionality.\n\n"
  else if mode = str "test" then
    str "Generate comprehensive tests for the code.\n\n"
  else []

theorem foldl_fileSubsections (files : List ContextFile) (init : Str) :
    files.foldl (fun acc file =>
      acc ++ str "### " ++ file.path ++ str "\n" ++
      str "```" ++ jsOrStr file.language (str "text") ++ str "\n" ++
      file.content ++ str "\n" ++
      str "```\n\n") init =
    init ++ (files.map fileSubsection).join := by
  induction files generalizing init with
  | nil => simp
  | cons f fs ih =>
    rw [List.foldl_cons, ih]
    simp [fileSubsection, List.append_assoc]

/-- C8: the assembled prompt is exactly the concatenation, in this fixed
order, of the header, one sub-section per context file (path plus fenced
code block tagged with its language), the structure outline, the fixed
output-tagging instructions, mode-specific guidance (nonempty only for
`refactor` and `test`), and finally the verbatim user message. -/
theorem c8_prompt_sections (userMessage : Str) (context : QueryResult)
    (options : ChatOptions) :
    buildEnrichedPrompt userMessage context options =
      str "# Project Context\n\n" ++
      relevantFilesSection context.files ++
      structureSection context.structureText ++
      instructionsBlock ++
      modeGuidance options.mode ++
      str "# User Request\n\n" ++ userMessage ∧
    (¬ (options.mode = str "refactor") → ¬ (options.mode = str "test") →
      modeGuidance options.mode = []) := by
  constructor
  · unfold buildEnrichedPrompt relevantFilesSection structureSection
      modeGuidance
    dsimp only
    rw [foldl_fileSubsections]
    by_cases hf : context.files.length > 0 <;>
      by_cases hs : context.structureText = [] <;>
        by_cases hr : options.mode = str "refactor" <;>
          by_cases ht : options.mode = str "test" <;>
            simp [hf, hs, hr, ht, List.append_assoc,
              show ¬ (str "test" = str "refactor") from by decide]
  · intro hr ht
    unfold modeGuidance
    rw [if_neg hr, if_neg ht]

/-- C8 witness: the statement applied to an empty context in `chat` mode,
with the guidance conjunct discharged. -/
theorem c8_witness :
    buildEnrichedPrompt (str "hi") ⟨[], []⟩ ⟨str "chat"⟩ =
      str "# Project Context\n\n" ++ relevantFilesSection [] ++
      structureSection [] ++ instructionsBlock ++
      modeGuidance (str "chat") ++ str "# User Request\n\n" ++ str "hi" ∧
    modeGuidance (str "chat") = [] :=
  ⟨(c8_prompt_sections (str "hi") ⟨[], []⟩ ⟨str "chat"⟩).1,
    (c8_prompt_sections (str "hi") ⟨[], []⟩ ⟨str "chat"⟩).2
      (by decide) (by decide)⟩

theorem strLt_asymm {a b : Str} (h : strLt a b = true) :
    strLt b a = false := by
  induction a generalizing b with
  | nil =>
    cases b with
    | nil => simp [strLt] at h
    | cons y ys => simp [strLt]
  | cons x xs ih =>
    cases b with
    | nil => simp [strLt] at h
    | cons y ys =>
      simp only [strLt] at h ⊢
      by_cases hxy : x < y
      · rw [if_neg (lt_asymm hxy), if_pos hxy]
      · rw [if_neg hxy] at h
        by_cases hyx : y < x
        · rw [if_pos hyx] at h
          exact absurd h (by simp)
        · rw [if_neg hyx] at h
          rw [if_neg hyx, if_neg hxy]
          exact ih h

theorem strLt_trans {a b c : Str} (h1 : strLt a b = true)
    (h2 : strLt b c = true) : strLt a c = true := by
  induction a generalizing b c with
  | nil =>
    cases c with
    | nil =>
      cases b with
      | nil => exact h1
      | cons y ys => simp [strLt] at h2
    | cons z zs => simp [strLt]
  | cons x xs ih =>
    cases b with
    | nil => simp [strLt] at h1
    | cons y ys =>
      cases c with
      | nil => simp [strLt] at h2
      | cons z zs =>
        simp only [strLt] at h1 h2 ⊢
        by_cases hxy : x < y <;> by_cases hyz : y < z
        · rw [if_pos (lt_trans hxy hyz)]
        · rw [if_neg hyz] at h2
          by_cases hzy : z < y
          · rw [if_pos hzy] at h2
            exact absurd h2 (by simp)
          · rw [if_neg hzy] at h2
            have hyzeq : y = z := le_antisymm (le_of_not_lt hzy) (le_of_not_lt hyz)
            subst hyzeq
            rw [if_pos hxy]
        · rw [if_neg hxy] at h1
          by_cases hyx : y < x
          · rw [if_pos hyx] at h1
            exact absurd h1 (by simp)
          · rw [if_neg hyx] at h1
            have hxyeq : x = y := le_antisymm (le_of_not_lt hyx) (le_of_not_lt hxy)
            subst hxyeq
            rw [if_pos hyz]
        · rw [if_neg hxy] at h1
          rw [if_neg hyz] at h2
          by_cases hyx : y < x
          · rw [if_pos hyx] at h1
            exact absurd h1 (by simp)
          · by_cases hzy : z < y
            · rw [if_pos hzy] at h2
              exact absurd h2 (by simp)
            · rw [if_neg hyx] at h1
              rw [if_neg hzy] at h2
              have hxyeq : x = y := le_antisymm (le_of_not_lt hyx) (le_of_not_lt hxy)
              subst hxyeq
              rw [if_neg hyz, if_neg hzy]
              exact ih h1 h2

theorem strLt_false_false_eq {a b : Str} (h1 : strLt a b = false)
    (h2 : strLt b a = false) : a = b := by
  induction a generalizing b with
  | nil =>
    cases b with
    | nil => rfl
    | cons y ys => simp [strLt] at h1
  | cons x xs ih =>
    cases b with
    | nil => simp [strLt] at h2
    | cons y ys =>
      simp only [strLt] at h1 h2
      by_cases hxy : x < y
      · rw [if_pos hxy] at h1
        exact absurd h1 (by simp)
      · by_cases hyx : y < x
        · rw [if_pos hyx] at h2
          exact absurd h2 (by simp)
        · rw [if_neg hxy, if_neg hyx] at h1
          rw [if_neg hyx, if_neg hxy] at h2
          have hxyeq : x = y := le_antisymm (le_of_not_lt hyx) (le_of_not_lt hxy)
          rw [hxyeq, ih h1 h2]

theorem entryLE_total (a b : Str × Option FileTree) :
    entryLE a b = true ∨ entryLE b a = true := by
  unfold entryLE
  cases ha : a.2 <;> cases hb : b.2 <;> simp
  · cases hlt : strLt b.1 a.1
    · left; simp [hlt]
    · right; simp [strLt_asymm hlt]
  · cases hlt : strLt b.1 a.1
    · left; simp [hlt]
    · right; simp [strLt_asymm hlt]

theorem strLt_le_trans {x y z : Str} (h1 : strLt y x = false)
    (h2 : strLt z y = false) : strLt z x = false := by
  cases hzx : strLt z x with
  | false => rfl
  | true =>
    exfalso
    cases hyz : strLt y z with
    | true =>
      have hyx := strLt_trans hyz hzx
      rw [hyx] at h1
      exact Bool.true_eq_false.mp h1
    | false =>
      have heq : y = z := strLt_false_false_eq hyz h2
      rw [← heq] at hzx
      rw [hzx] at h1
      exact Bool.true_eq_false.mp h1

theorem entryLE_trans {a b c : Str × Option FileTree}
    (h1 : entryLE a b = true) (h2 : entryLE b c = true) :
    entryLE a c = true := by
  unfold entryLE at h1 h2 ⊢
  cases ha : a.2 <;> cases hb : b.2 <;> cases hc : c.2 <;>
    rw [ha, hb] at h1 <;> rw [hb, hc] at h2 <;> simp at h1 h2 ⊢ <;>
    try exact trivial
  · exact strLt_le_trans h1 h2
  · exact strLt_le_trans h1 h2

theorem insertSorted_perm (x : Str × Option FileTree)
    (l : List (Str × Option FileTree)) :
    (insertSorted x l).Perm (x :: l) := by
  induction l with
  | nil => exact List.Perm.refl _
  | cons y ys ih =>
    unfold insertSorted
    by_cases h : entryLE x y
    · rw [if_pos h]
    · rw [if_neg h]
      exact (ih.cons y).trans (List.Perm.swap x y ys)

theorem insertSorted_pairwise (x : Str × Option FileTree)
    {l : List (Str × Option FileTree)}
    (hl : l.Pairwise (fun a b => entryLE a b = true)) :
    (insertSorted x l).Pairwise (fun a b => entryLE a b = true) := by
  induction l with
  | nil => simp [insertSorted]
  | cons y ys ih =>
    obtain ⟨hy, hys⟩ := List.pairwise_cons.mp hl
    unfold insertSorted
    by_cases h : entryLE x y
    · rw [if_pos h]
      refine List.pairwise_cons.mpr ⟨?_, hl⟩
      intro z hz
      cases List.mem_cons.mp hz with
      | inl heq => subst heq; exact h
      | inr hmem => exact entryLE_trans h (hy z hmem)
    · rw [if_neg h]
      refine List.pairwise_cons.mpr ⟨?_, ih hys⟩
      intro z hz
      have hz' := (insertSorted_perm x ys).mem_iff.mp hz
      cases List.mem_cons.mp hz' with
      | inl heq =>
        cases entryLE_total x y with
        | inl habs => exact absurd habs h
        | inr hyx => rw [heq]; exact hyx
      | inr hmem => exact hy z hmem

theorem sortEntries_pairwise (l : List (Str × Option FileTree)) :
    (sortEntries l).Pairwise (fun a b => entryLE a b = true) := by
  induction l with
  | nil => simp [sortEntries]
  | cons x xs ih => exact insertSorted_pairwise x ih

theorem sortEntries_perm (l : List (Str × Option FileTree)) :
    (sortEntries l).Perm l := by
  induction l with
  | nil => exact List.Perm.refl _
  | cons x xs ih => exact (insertSorted_perm x (sortEntries xs)).trans (ih.cons x)

/-- C7: at every level, the rendered entry list is a permutation of the
level's entries, sorted so that no file precedes a directory and
same-kind neighbours are in ascending name order; for the example paths
`a/b.js`, `a/c.js`, `d.js` the rendering lists directory `a` before file
`d.js`, and `b.js` before `c.js` inside `a`. -/
theorem c7_tree_ordering :
    (∀ es : List (Str × Option FileTree),
      (sortEntries es).Pairwise (fun a b =>
        (a.2.isSome = true ∧ b.2.isSome = false) ∨
        (a.2.isSome = b.2.isSome ∧ strLt b.1 a.1 = false)) ∧
      (sortEntries es).Perm es) ∧
    treeToString (buildFileTree [str "a/b.js", str "a/c.js", str "d.js"])
      [] =
      str "📁 a\n  📄 b.js\n  📄 c.js\n📄 d.js\n" := by
  refine ⟨?_, by decide⟩
  intro es
  refine ⟨(sortEntries_pairwise es).imp ?_, sortEntries_perm es⟩
  intro a b hab
  unfold entryLE at hab
  cases ha : a.2 <;> cases hb : b.2 <;> rw [ha, hb] at hab <;>
    simp at hab ⊢
  · exact hab
  · exact hab
